import Mathlib

/-!
Shallow embedding of `src/hmsearch.cc`, the HmSearch hash lookup library.

Hashes and byte strings (`std::basic_string<uint8_t>`, leveldb slices) are
`List Nat` with byte values below 256.  The leveldb store is an association
list from byte-string keys to byte-string values; leveldb `Put` overwrites
the value of an existing key.  Machine `int` arithmetic never overflows for
the parameter ranges involved, so `Nat` models it, with subtraction guarded
wherever the C value could go negative.  The one place where the C code can
shift by a negative amount (undefined behaviour) is modelled by `Option`,
with `none` standing for the undefined call.
-/

/-- Byte strings: lists of byte values. -/
abbrev Bytes := List Nat

/-- The fields of `HmSearchImpl` as its constructor derives them
(`hmsearch.cc:45-53`): `_hash_bits`, `_max_error`, `_hash_bytes`,
`_partitions`, `_partition_bits`, `_partition_bytes`. -/
structure HmParams where
  hash_bits : Nat
  max_error : Nat
  hash_bytes : Nat
  partitions : Nat
  partition_bits : Nat
  partition_bytes : Nat
deriving DecidableEq

/-- The constructor of `HmSearchImpl` (`hmsearch.cc:45-53`).
`ceil((double)hash_bits / _partitions)` is exact for the `unsigned` range
involved (quotients of integers below 2^32 round to a double strictly
between consecutive integers unless exact), so it is the natural-number
ceiling division. -/
def mkParams (hash_bits max_error : Nat) : HmParams :=
  let partitions := (max_error + 3) / 2
  let partition_bits := (hash_bits + partitions - 1) / partitions
  { hash_bits := hash_bits
    max_error := max_error
    hash_bytes := (hash_bits + 7) / 8
    partitions := partitions
    partition_bits := partition_bits
    partition_bytes := (partition_bits + 7) / 8 + 1 }

/-- The static popcount table `HmSearchImpl::one_bits` (`hmsearch.cc:501-518`),
transcribed literally. -/
def one_bits : List Nat :=
  [0, 1, 1, 2, 1, 2, 2, 3, 1, 2, 2, 3, 2, 3, 3, 4,
   1, 2, 2, 3, 2, 3, 3, 4, 2, 3, 3, 4, 3, 4, 4, 5,
   1, 2, 2, 3, 2, 3, 3, 4, 2, 3, 3, 4, 3, 4, 4, 5,
   2, 3, 3, 4, 3, 4, 4, 5, 3, 4, 4, 5, 4, 5, 5, 6,
   1, 2, 2, 3, 2, 3, 3, 4, 2, 3, 3, 4, 3, 4, 4, 5,
   2, 3, 3, 4, 3, 4, 4, 5, 3, 4, 4, 5, 4, 5, 5, 6,
   2, 3, 3, 4, 3, 4, 4, 5, 3, 4, 4, 5, 4, 5, 5, 6,
   3, 4, 4, 5, 4, 5, 5, 6, 4, 5, 5, 6, 5, 6, 6, 7,
   1, 2, 2, 3, 2, 3, 3, 4, 2, 3, 3, 4, 3, 4, 4, 5,
   2, 3, 3, 4, 3, 4, 4, 5, 3, 4, 4, 5, 4, 5, 5, 6,
   2, 3, 3, 4, 3, 4, 4, 5, 3, 4, 4, 5, 4, 5, 5, 6,
   3, 4, 4, 5, 4, 5, 5, 6, 4, 5, 5, 6, 5, 6, 6, 7,
   2, 3, 3, 4, 3, 4, 4, 5, 3, 4, 4, 5, 4, 5, 5, 6,
   3, 4, 4, 5, 4, 5, 5, 6, 4, 5, 5, 6, 5, 6, 6, 7,
   3, 4, 4, 5, 4, 5, 5, 6, 4, 5, 5, 6, 5, 6, 6, 7,
   4, 5, 5, 6, 5, 6, 6, 7, 5, 6, 6, 7, 6, 7, 7, 8]

/-- `HmSearchImpl::hamming_distance` (`hmsearch.cc:451-462`): the sum over
the query's byte positions of the table entry for the byte-wise XOR. -/
def hamming_distance (query hash : Bytes) : Nat :=
  (List.range query.length).foldl
    (fun d i => d + one_bits.getD ((query.getD i 0) ^^^ (hash.getD i 0)) 0) 0

/-- The number of set bits of a byte value: the mathematical popcount the
`one_bits` table tabulates and the spec's distance definition refers to. -/
def bytePopcount (x : Nat) : Nat :=
  (List.range 8).countP (fun i => x.testBit i)

/-- The Hamming distance as the spec states it: the total popcount of the
byte-wise XOR, taken over the query's byte positions. -/
def trueHamming (query hash : Bytes) : Nat :=
  (List.range query.length).foldl
    (fun d i => d + bytePopcount ((query.getD i 0) ^^^ (hash.getD i 0))) 0

/-- The leveldb store: an association list from keys to values.  `Put`
overwrites the value of a key already present and otherwise adds the pair;
`Get` finds the value of a key. -/
abbrev Store := List (Bytes × Bytes)

def store_empty : Store := []

def store_get : Store → Bytes → Option Bytes
  | [], _ => none
  | (k, v) :: rest, key => if k = key then some v else store_get rest key

def store_put : Store → Bytes → Bytes → Store
  | [], key, val => [(key, val)]
  | (k, v) :: rest, key, val =>
    if k = key then (key, val) :: rest else (k, v) :: store_put rest key val

/-- An open or closed database handle together with its store contents
(`_db == NULL` models closed). -/
structure DB where
  isOpen : Bool
  store : Store
deriving DecidableEq

/-- The byte-copying loop of `HmSearchImpl::get_partition_key`
(`hmsearch.cc:482-495`): `n` iterations remain, `bits_left` partition bits
remain to copy, and `hash_bit` is the current bit position in the hash.
Reading the hash at index `length` yields 0, the defined null character of
`std::basic_string::operator[](size())`. -/
def gpk_bytes (hash : Bytes) : Nat → Nat → Nat → Bytes
  | 0, _, _ => []
  | n + 1, bits_left, hash_bit =>
    let byte := hash_bit / 8
    let bit := hash_bit % 8
    let bits := min (8 - bit) bits_left
    (hash.getD byte 0 &&& (((1 <<< bits) - 1) <<< (8 - bit - bits))) ::
      gpk_bytes hash n (bits_left - bits) (hash_bit + bits)

/-- `HmSearchImpl::get_partition_key` (`hmsearch.cc:465-498`): the key is
the byte `'P'` (80), the partition number truncated to one byte, then
`partition_bytes` masked hash bytes; the partition's real bit count
`psize` is returned alongside.  When `hash_bits < partition *
partition_bits` the C code's `int psize` is negative and the loop evaluates
`1 << bits` with a negative shift amount — undefined behaviour, modelled as
`none`. -/
def get_partition_key (p : HmParams) (hash : Bytes) (partition : Nat) :
    Option (Bytes × Nat) :=
  if p.hash_bits < partition * p.partition_bits then none
  else
    let psize := min p.partition_bits (p.hash_bits - partition * p.partition_bits)
    some (80 :: partition % 256 ::
            gpk_bytes hash p.partition_bytes psize (partition * p.partition_bits),
          psize)

/-- The partition writes of `HmSearchImpl::insert` (`hmsearch.cc:263-276`):
one leveldb `Put` per partition, keyed by the partition key, with the full
hash as the value — an overwrite, not an append. -/
def insertStore (p : HmParams) (s : Store) (hash : Bytes) : Option Store :=
  (List.range p.partitions).foldlM
    (fun st i => (get_partition_key p hash i).map (fun kp => store_put st kp.1 hash)) s

/-- `HmSearchImpl::insert` (`hmsearch.cc:244-279`): the C function's
success flag and `error_msg`, together with the resulting handle. -/
def HmSearch.insert (p : HmParams) (db : DB) (hash : Bytes) : Bool × String × DB :=
  if hash.length ≠ p.hash_bytes then (false, "incorrect hash length", db)
  else if db.isOpen = false then (false, "database is closed", db)
  else
    match insertStore p db.store hash with
    | some s => (true, "", { isOpen := true, store := s })
    | none => (false, "undefined partition key", db)

/-- A sequence of inserts, stopping at the first unsuccessful one. -/
def insertList (p : HmParams) (db : DB) (hs : List Bytes) : Option DB :=
  hs.foldlM (fun db h =>
    let r := HmSearch.insert p db h
    if r.1 then some r.2.2 else none) db

/-- `HmSearchImpl::Candidate` (`hmsearch.cc:72-77`), default constructed
all zero. -/
structure Candidate where
  matches_ : Nat
  first_match : Nat
  second_match : Nat
deriving DecidableEq

def Candidate.init : Candidate := ⟨0, 0, 0⟩

/-- `std::map<hash_string, Candidate>` as an association list.  Iteration
order is first-insertion order rather than `std::map`'s sorted order; this
affects only the order of the final result list, which the spec leaves
unspecified, not its contents (the per-candidate counters are
order-independent). -/
abbrev CandidateMap := List (Bytes × Candidate)

def cmGet : CandidateMap → Bytes → Candidate
  | [], _ => Candidate.init
  | (k, c) :: rest, h => if k = h then c else cmGet rest h

def cmSet : CandidateMap → Bytes → Candidate → CandidateMap
  | [], h, c => [(h, c)]
  | (k, c0) :: rest, h, c => if k = h then (h, c) :: rest else (k, c0) :: cmSet rest h c

/-- The per-hash update of `HmSearchImpl::add_hash_candidates`
(`hmsearch.cc:415-423`): `++matches`, recording the match tier on the
first and second observations. -/
def bump (c : Candidate) (tier : Nat) : Candidate :=
  let m := c.matches_ + 1
  { matches_ := m
    first_match := if m = 1 then tier else c.first_match
    second_match := if m = 2 then tier else c.second_match }

/-- The chunking loop of `HmSearchImpl::add_hash_candidates`
(`hmsearch.cc:413-414`): positions `0, sz, 2·sz, …` below `bytes.length`,
each yielding the `sz`-byte slice starting there.  The C code always reads
`sz` bytes (reading past the value's end if its length is not a multiple
of `sz`, which `insert` never produces); the fuel equals the length, which
bounds the iteration count for `sz ≥ 1`. -/
def chunksAux (sz : Nat) (bytes : Bytes) : Nat → Nat → List Bytes
  | 0, _ => []
  | fuel + 1, n =>
    if n < bytes.length then (bytes.drop n).take sz :: chunksAux sz bytes fuel (n + sz)
    else []

def chunks (sz : Nat) (bytes : Bytes) : List Bytes := chunksAux sz bytes bytes.length 0

/-- `HmSearchImpl::add_hash_candidates` (`hmsearch.cc:409-425`). -/
def add_hash_candidates (p : HmParams) (cm : CandidateMap) (tier : Nat)
    (bytes : Bytes) : CandidateMap :=
  (chunks p.hash_bytes bytes).foldl (fun cm h => cmSet cm h (bump (cmGet cm h) tier)) cm

/-- The 1-variant probing loop of `HmSearchImpl::get_candidates`
(`hmsearch.cc:389-404`): for each of the partition's `psize` bits, flip
that bit in the key, probe the store, and restore the bit. -/
def probe_variants (p : HmParams) (s : Store) (key : Bytes) (start psize : Nat)
    (cm : CandidateMap) : CandidateMap :=
  (List.range psize).foldl
    (fun cm t =>
      let pbit := start + t
      let idx := pbit / 8 - start / 8 + 2
      let flipped := key.set idx ((key.getD idx 0) ^^^ (1 <<< (7 - pbit % 8)))
      match store_get s flipped with
      | some v => add_hash_candidates p cm 1 v
      | none => cm)
    cm

/-- `HmSearchImpl::get_candidates` (`hmsearch.cc:370-406`).  The `none`
branch of `get_partition_key` (a C-side undefined call) contributes
nothing; it is unreachable for the parameters exercised here. -/
def get_candidates (p : HmParams) (s : Store) (query : Bytes) : CandidateMap :=
  (List.range p.partitions).foldl
    (fun cm i =>
      match get_partition_key p query i with
      | none => cm
      | some (key, psize) =>
        let cm' := match store_get s key with
          | some v => add_hash_candidates p cm 0 v
          | none => cm
        probe_variants p s key (i * p.partition_bits) psize cm')
    []

/-- `HmSearchImpl::valid_candidate` (`hmsearch.cc:428-448`); the C `int`
truthiness of `first_match && second_match` is `≠ 0`. -/
def valid_candidate (p : HmParams) (c : Candidate) : Bool :=
  if p.max_error % 2 = 1 then
    if c.matches_ < 3 then
      if c.matches_ = 1 ∨ (c.first_match ≠ 0 ∧ c.second_match ≠ 0) then false else true
    else true
  else
    if c.matches_ < 2 then
      if c.first_match ≠ 0 then false else true
    else true

/-- The filtering loop body of `HmSearchImpl::lookup` (`hmsearch.cc:306-315`):
a candidate passing the validity rule has its distance computed and is
appended when the distance is within `_max_error` and, for a non-negative
`reduced_error`, within that cap too (the C local `distance` is inlined). -/
def lookup_step (p : HmParams) (query : Bytes) (reduced_error : Int)
    (acc : List (Bytes × Nat)) (hc : Bytes × Candidate) : List (Bytes × Nat) :=
  if valid_candidate p hc.2 then
    if hamming_distance query hc.1 ≤ p.max_error ∧
        (reduced_error < 0 ∨ (hamming_distance query hc.1 : Int) ≤ reduced_error) then
      acc ++ [(hc.1, hamming_distance query hc.1)]
    else acc
  else acc

/-- `HmSearchImpl::lookup` (`hmsearch.cc:282-318`): the C function's
success flag and `error_msg`, and the caller's result list with the
accepted candidates appended. -/
def lookup (p : HmParams) (db : DB) (query : Bytes) (reduced_error : Int)
    (res : List (Bytes × Nat)) : Bool × String × List (Bytes × Nat) :=
  if query.length ≠ p.hash_bytes then (false, "incorrect hash length", res)
  else if db.isOpen = false then (false, "database is closed", res)
  else
    (true, "",
      (get_candidates p db.store query).foldl (lookup_step p query reduced_error) res)

/-- The parameter validation of `HmSearch::init` (`hmsearch.cc:112-120`):
`some msg` when validation fails with that `error_msg`, `none` when both
checks pass and the function proceeds to create the store. -/
def init_validate (hash_bits max_error : Nat) : Option String :=
  if hash_bits = 0 ∨ hash_bits &&& 7 ≠ 0 then some ("invalid hash_bits value")
  else if max_error = 0 ∨ max_error ≥ hash_bits ∨ max_error > 518 then
    some ("invalid max_error value")
  else none

/-- The sixteen lowercase hex characters, as `sprintf "%02x"` uses them. -/
def hexDigits : List Char := "0123456789abcdef".toList

/-- One output character of `sprintf "%02x"`: the hex digit of a value
below 16. -/
def hexDigit (n : Nat) : Char := hexDigits.getD n '0'

/-- `HmSearch::format_hexhash` (`hmsearch.cc:230-239`): each byte printed
as two lowercase hex characters. -/
def format_hexhash (hash : Bytes) : List Char :=
  hash.foldr (fun b acc => hexDigit (b / 16) :: hexDigit (b % 16) :: acc) []

/-- C locale `isspace`. -/
def isSpaceC (c : Char) : Bool :=
  c = ' ' ∨ c = '\t' ∨ c = '\n' ∨ c = '\x0b' ∨ c = '\x0c' ∨ c = '\r'

/-- The characters `strtoul` accepts as base-16 digits. -/
def isHexDigitC (c : Char) : Bool :=
  ('0' ≤ c ∧ c ≤ '9') ∨ ('a' ≤ c ∧ c ≤ 'f') ∨ ('A' ≤ c ∧ c ≤ 'F')

/-- The value of a base-16 digit character. -/
def hexVal (c : Char) : Nat :=
  if '0' ≤ c ∧ c ≤ '9' then c.toNat - '0'.toNat
  else if 'a' ≤ c ∧ c ≤ 'f' then c.toNat - 'a'.toNat + 10
  else c.toNat - 'A'.toNat + 10

/-- One round of the parsing loop of `HmSearch::parse_hexhash`
(`hmsearch.cc:212-225`): `strtoul(buf, &err, 16)` on the two-character
null-terminated buffer, followed by the check `*err == '\0'`.  `strtoul`
skips leading white space, accepts one optional sign, parses base-16
digits (an empty subject sequence yields 0 with `err` at the start of the
buffer), and the result is stored into a `uint8_t`, hence taken modulo
256.  `none` is the `*err != '\0'` early return. -/
def parse_pair (c0 c1 : Char) : Option Nat :=
  if c0 = '\x00' then some 0
  else if isHexDigitC c0 ∧ isHexDigitC c1 then some (16 * hexVal c0 + hexVal c1)
  else if isHexDigitC c0 ∧ c1 = '\x00' then some (hexVal c0)
  else if (isSpaceC c0 ∨ c0 = '+') ∧ isHexDigitC c1 then some (hexVal c1)
  else if c0 = '-' ∧ isHexDigitC c1 then some ((256 - hexVal c1) % 256)
  else none

/-- `HmSearch::parse_hexhash` (`hmsearch.cc:207-228`): `len = length / 2`
pairs are parsed (a trailing odd character is never looked at); the first
failing pair makes the whole result the empty hash. -/
def parse_hexhash (hexhash : List Char) : Bytes :=
  match (List.range (hexhash.length / 2)).mapM
      (fun i => parse_pair (hexhash.getD (2 * i) '\x00')
                           (hexhash.getD (2 * i + 1) '\x00')) with
  | some l => l
  | none => []

/-- Bit `t` of a byte value, numbered from the most significant bit as the
spec's key layout does. -/
def msbBit (x t : Nat) : Bool := x.testBit (7 - t)

/-- Bit `j` of a hash in the spec's left-to-right numbering: bit `j % 8`
of byte `j / 8`. -/
def hashBit (hash : Bytes) (j : Nat) : Bool := msbBit (hash.getD (j / 8) 0) (j % 8)

/-- Whether `key` is one of the partition keys `insert` writes for
`hash`. -/
def hashHasKey (p : HmParams) (hash key : Bytes) : Bool :=
  (List.range p.partitions).any (fun i =>
    match get_partition_key p hash i with
    | some kp => kp.1 = key
    | none => false)

/-- The last hash of `hs` one of whose partition keys is `key`. -/
def lastWriter (p : HmParams) (hs : List Bytes) (key : Bytes) : Option Bytes :=
  hs.foldl (fun acc h => if hashHasKey p h key then some h else acc) none

/-- The parameters of the spec's concrete scenarios S1-S5: `B = 8`,
`k = 2` (two partitions of four bits). -/
def p8 : HmParams := mkParams 8 2

/-! ### Validation of init parameters (claim C7) -/

/-- Claim C7: `init(path, B, k)` fails with InvalidHashBits (message
"invalid hash_bits value") exactly when `B = 0` or `B mod 8 ≠ 0`; given a
valid `B` it fails with InvalidMaxError (message "invalid max_error
value") exactly when `k = 0`, `k ≥ B` or `k > 518`; when both checks pass,
validation succeeds and `init` proceeds to create the store. -/
theorem init_validation_characterization (B k : Nat) :
    (init_validate B k = some ("invalid hash_bits value") ↔ (B = 0 ∨ B % 8 ≠ 0)) ∧
    (init_validate B k = some ("invalid max_error value") ↔
      (¬(B = 0 ∨ B % 8 ≠ 0) ∧ (k = 0 ∨ k ≥ B ∨ k > 518))) ∧
    (init_validate B k = none ↔
      (¬(B = 0 ∨ B % 8 ≠ 0) ∧ ¬(k = 0 ∨ k ≥ B ∨ k > 518))) := by
  have h7 : B &&& 7 = B % 8 := by
    have h := Nat.and_pow_two_sub_one_eq_mod B 3
    norm_num at h
    exact h
  unfold init_validate
  rw [h7]
  refine ⟨?_, ?_, ?_⟩ <;> split_ifs <;> simp_all

/-! ### The candidate validity rule (claim C3) -/

/-- Claim C3: for every candidate record with `matches ≥ 1` and tiers in
`{0, 1}`, `valid_candidate` accepts iff, for odd `k`, `matches ≥ 3` or
`matches = 2` with one of the tiers being 0; and, for even `k`,
`matches ≥ 2` or `matches = 1` with `first_match = 0`. -/
theorem valid_candidate_rule (p : HmParams) (c : Candidate)
    (hm : 1 ≤ c.matches_) (h1 : c.first_match ≤ 1) (h2 : c.second_match ≤ 1) :
    (p.max_error % 2 = 1 →
      (valid_candidate p c = true ↔
        (3 ≤ c.matches_ ∨ (c.matches_ = 2 ∧ (c.first_match = 0 ∨ c.second_match = 0))))) ∧
    (p.max_error % 2 = 0 →
      (valid_candidate p c = true ↔
        (2 ≤ c.matches_ ∨ (c.matches_ = 1 ∧ c.first_match = 0)))) := by
  unfold valid_candidate
  constructor <;> intro hk <;> rw [hk] <;> norm_num <;> omega

/-- A concrete instance of the validity rule: for `k = 3` a candidate seen
twice, once in an exact slot, is accepted. -/
theorem valid_candidate_rule_witness : valid_candidate (mkParams 16 3) ⟨2, 0, 1⟩ = true :=
  ((valid_candidate_rule (mkParams 16 3) ⟨2, 0, 1⟩ (by decide) (by decide)
      (by decide)).1 (by decide)).mpr (by decide)

/-! ### Guarded operations (claim C8) -/

/-- Claim C8: `insert` and `lookup` fail with "incorrect hash length"
whenever the input length differs from `⌈B/8⌉` and with "database is
closed" whenever the handle is closed (the length check coming first); in
every failure case the store is left unchanged and nothing is appended to
the result list. -/
theorem guarded_operations (p : HmParams) (db : DB) (hash query : Bytes)
    (re : Int) (res : List (Bytes × Nat)) :
    (hash.length ≠ p.hash_bytes →
      HmSearch.insert p db hash = (false, "incorrect hash length", db)) ∧
    (hash.length = p.hash_bytes → db.isOpen = false →
      HmSearch.insert p db hash = (false, "database is closed", db)) ∧
    (db.isOpen = false →
      (HmSearch.insert p db hash).1 = false ∧ (HmSearch.insert p db hash).2.2 = db) ∧
    (query.length ≠ p.hash_bytes →
      lookup p db query re res = (false, "incorrect hash length", res)) ∧
    (query.length = p.hash_bytes → db.isOpen = false →
      lookup p db query re res = (false, "database is closed", res)) ∧
    (db.isOpen = false →
      (lookup p db query re res).1 = false ∧ (lookup p db query re res).2.2 = res) := by
  unfold HmSearch.insert lookup
  refine ⟨?_, ?_, ?_, ?_, ?_, ?_⟩ <;> intros <;> split_ifs <;> simp_all

/-- A concrete instance of the guards: inserting a two-byte hash into the
one-byte-hash index fails with the length message and leaves the handle
untouched. -/
theorem guarded_operations_witness :
    HmSearch.insert p8 ⟨false, store_empty⟩ [1, 2] =
      (false, "incorrect hash length", ⟨false, store_empty⟩) :=
  (guarded_operations p8 ⟨false, store_empty⟩ [1, 2] [] (-1) []).1 (by decide)

/-! ### Soundness of lookup results (claim C4) -/

/-- A default-0 read from a list of bytes is a byte. -/
theorem byte_getD_lt {l : Bytes} (h : ∀ b ∈ l, b < 256) (i : Nat) : l.getD i 0 < 256 := by
  by_cases hi : i < l.length
  · rw [List.getD_eq_getElem l 0 hi]
    exact h _ (List.getElem_mem hi)
  · rw [List.getD_eq_default l 0 (Nat.le_of_not_lt hi)]
    omega

set_option maxRecDepth 4000 in
/-- The `one_bits` table is the byte popcount. -/
theorem one_bits_popcount : ∀ x < 256, one_bits.getD x 0 = bytePopcount x := by decide

/-- Pointwise-equal added terms give equal left folds. -/
theorem foldl_add_congr {f g : Nat → Nat} :
    ∀ (l : List Nat) (a : Nat), (∀ i ∈ l, f i = g i) →
      l.foldl (fun d i => d + f i) a = l.foldl (fun d i => d + g i) a := by
  intro l
  induction l with
  | nil => intro a _; rfl
  | cons x xs ih =>
    intro a h
    simp only [List.foldl_cons]
    rw [h x (by simp)]
    exact ih _ (fun i hi => h i (by simp [hi]))

/-- On byte strings, the table-driven `hamming_distance` is the true
popcount of the byte-wise XOR. -/
theorem hamming_eq_trueHamming (query hash : Bytes)
    (hq : ∀ b ∈ query, b < 256) (hh : ∀ b ∈ hash, b < 256) :
    hamming_distance query hash = trueHamming query hash := by
  unfold hamming_distance trueHamming
  refine foldl_add_congr _ _ (fun i _ => ?_)
  refine one_bits_popcount _ ?_
  have h256 : (256 : Nat) = 2 ^ 8 := by norm_num
  rw [h256]
  exact Nat.xor_lt_two_pow (h256 ▸ byte_getD_lt hq i) (h256 ▸ byte_getD_lt hh i)

/-- Every element the lookup filtering fold adds beyond the accumulator
satisfies the distance filter. -/
theorem lookup_step_mem (p : HmParams) (query : Bytes) (re : Int) :
    ∀ (l : CandidateMap) (acc : List (Bytes × Nat)) (x : Bytes × Nat),
      x ∈ l.foldl (lookup_step p query re) acc →
      x ∈ acc ∨ (x.2 = hamming_distance query x.1 ∧ x.2 ≤ p.max_error ∧
        (re < 0 ∨ (x.2 : Int) ≤ re)) := by
  intro l
  induction l with
  | nil => intro acc x h; exact Or.inl h
  | cons hc rest ih =>
    intro acc x h
    simp only [List.foldl_cons] at h
    rcases ih _ _ h with h' | h'
    · unfold lookup_step at h'
      split_ifs at h' with h1 h2
      · rcases List.mem_append.mp h' with h'' | h''
        · exact Or.inl h''
        · right
          rcases List.mem_singleton.mp h'' with rfl
          exact ⟨rfl, h2.1, h2.2⟩
      · exact Or.inl h'
      · exact Or.inl h'
    · exact Or.inr h'

/-- Claim C4: every pair `(H, d)` a successful `lookup(Q, m)` returns has
`d` equal to the table-driven Hamming distance of `Q` and `H` — which, on
byte strings, is the popcount of the byte-wise XOR — with `d ≤ k` and,
when the caller passed a cap `m ≥ 0`, also `d ≤ m`. -/
theorem lookup_result_sound (p : HmParams) (db : DB) (query : Bytes) (re : Int)
    (msg : String) (res : List (Bytes × Nat)) (H : Bytes) (d : Nat)
    (hrun : lookup p db query re [] = (true, msg, res))
    (hmem : (H, d) ∈ res) :
    d = hamming_distance query H ∧ d ≤ p.max_error ∧ (0 ≤ re → (d : Int) ≤ re) ∧
    ((∀ b ∈ query, b < 256) → (∀ b ∈ H, b < 256) → d = trueHamming query H) := by
  unfold lookup at hrun
  split_ifs at hrun with h1 h2
  · exact absurd (congrArg (fun t => t.1) hrun) (by simp)
  · exact absurd (congrArg (fun t => t.1) hrun) (by simp)
  · have hres : (get_candidates p db.store query).foldl (lookup_step p query re) [] = res :=
      congrArg (fun t => t.2.2) hrun
    rcases lookup_step_mem p query re _ _ _ (hres ▸ hmem) with h | h
    · simp at h
    · obtain ⟨ha, hb, hc⟩ := h
      refine ⟨ha, hb, fun h0 => ?_, fun hq hh => ?_⟩
      · rcases hc with h' | h'
        · omega
        · exact h'
      · exact ha.trans (hamming_eq_trueHamming query H hq hh)

/-- A concrete instance of lookup soundness: with 0xA5 stored, the result
entry `(0xA5, 0)` of `lookup(0xA5)` satisfies every filter. -/
theorem lookup_result_sound_witness :
    0 = hamming_distance [165] [165] ∧ 0 ≤ p8.max_error ∧
    (0 ≤ (-1 : Int) → ((0 : Nat) : Int) ≤ -1) ∧
    ((∀ b ∈ [165], b < 256) → (∀ b ∈ [165], b < 256) → 0 = trueHamming [165] [165]) :=
  lookup_result_sound p8 ⟨true, [([80, 0, 160, 0], [165]), ([80, 1, 5, 0], [165])]⟩
    [165] (-1) "" [([165], 0)] [165] 0 (by decide) (by decide)

/-! ### The hex codec (claims C9 and C10) -/

/-- `mapM` only looks at the function's values on the list. -/
theorem mapM_congr {α β : Type} {f g : α → Option β} :
    ∀ (l : List α), (∀ a ∈ l, f a = g a) → l.mapM f = l.mapM g := by
  intro l
  induction l with
  | nil => intro _; rfl
  | cons x xs ih =>
    intro h
    simp only [List.mapM_cons, h x (by simp)]
    rw [ih (fun a ha => h a (by simp [ha]))]

/-- Mapping the successor into a `mapM` over a list. -/
theorem mapM_comp_succ {α : Type} (f : Nat → Option α) :
    ∀ (l : List Nat), (l.map Nat.succ).mapM f = l.mapM (fun i => f (i + 1)) := by
  intro l
  induction l with
  | nil => rfl
  | cons x xs ih => simp only [List.map_cons, List.mapM_cons, ih]

/-- Peeling the first index off a `mapM` over `List.range`. -/
theorem mapM_range_succ {α : Type} (f : Nat → Option α) (n : Nat) :
    (List.range (n + 1)).mapM f =
      (f 0).bind (fun x => ((List.range n).mapM (fun i => f (i + 1))).map (x :: ·)) := by
  rw [List.range_succ_eq_map, List.mapM_cons, mapM_comp_succ]
  cases f 0 <;> cases (List.range n).mapM (fun i => f (i + 1)) <;> simp

/-- A `mapM` over `List.range` fails exactly when the function fails below
the bound. -/
theorem mapM_range_eq_none {α : Type} :
    ∀ (n : Nat) (f : Nat → Option α),
      (List.range n).mapM f = none ↔ ∃ i, i < n ∧ f i = none := by
  intro n
  induction n with
  | zero =>
    intro f
    constructor
    · intro h
      rw [show (List.range 0).mapM f = some [] from rfl] at h
      cases h
    · rintro ⟨i, hi, _⟩
      omega
  | succ n ih =>
    intro f
    rw [mapM_range_succ]
    constructor
    · intro h
      cases h0 : f 0 with
      | none => exact ⟨0, Nat.succ_pos n, h0⟩
      | some x =>
        rw [h0] at h
        cases hr : (List.range n).mapM (fun i => f (i + 1)) with
        | none =>
          rcases (ih _).mp hr with ⟨i, hi, hfi⟩
          exact ⟨i + 1, by omega, hfi⟩
        | some l => rw [hr] at h; simp at h
    · rintro ⟨i, hi, hfi⟩
      cases i with
      | zero => rw [hfi]; rfl
      | succ j =>
        have hr : (List.range n).mapM (fun i => f (i + 1)) = none :=
          (ih _).mpr ⟨j, by omega, hfi⟩
        rw [hr]
        cases f 0 <;> simp

/-- A successful `mapM` over `List.range n` yields `n` values. -/
theorem mapM_range_length {α : Type} :
    ∀ (n : Nat) (f : Nat → Option α) (l : List α),
      (List.range n).mapM f = some l → l.length = n := by
  intro n
  induction n with
  | zero =>
    intro f l h
    injection (show some ([] : List α) = some l from h) with h2
    rw [← h2]
    rfl
  | succ n ih =>
    intro f l h
    rw [mapM_range_succ] at h
    cases h0 : f 0 with
    | none => rw [h0] at h; simp at h
    | some x =>
      rw [h0] at h
      cases hr : (List.range n).mapM (fun i => f (i + 1)) with
      | none => rw [hr] at h; simp at h
      | some xs =>
        rw [hr] at h
        simp at h
        rw [← h]
        simp [ih _ _ hr]

/-- `format_hexhash` writes two characters per byte. -/
theorem format_hexhash_length (H : Bytes) : (format_hexhash H).length = 2 * H.length := by
  induction H with
  | nil => rfl
  | cons b T ih =>
    simp only [format_hexhash, List.foldr_cons, List.length_cons] at *
    omega

set_option maxRecDepth 4000 in
/-- Parsing back the two hex characters of a byte recovers the byte. -/
theorem parse_pair_hexDigit : ∀ b < 256, parse_pair (hexDigit (b / 16)) (hexDigit (b % 16)) = some b := by
  decide

/-- The pair-parsing pass of `parse_hexhash` inverts `format_hexhash`. -/
theorem parse_format_aux :
    ∀ (H : Bytes), (∀ b ∈ H, b < 256) →
      (List.range H.length).mapM
        (fun i => parse_pair ((format_hexhash H).getD (2 * i) '\x00')
                             ((format_hexhash H).getD (2 * i + 1) '\x00')) = some H := by
  intro H
  induction H with
  | nil => intro _; rfl
  | cons b T ih =>
    intro hb
    have hfmt : format_hexhash (b :: T) =
        hexDigit (b / 16) :: hexDigit (b % 16) :: format_hexhash T := rfl
    simp only [hfmt, List.length_cons]
    rw [mapM_range_succ]
    have h0 : parse_pair ((hexDigit (b / 16) :: hexDigit (b % 16) :: format_hexhash T).getD (2 * 0) '\x00')
        ((hexDigit (b / 16) :: hexDigit (b % 16) :: format_hexhash T).getD (2 * 0 + 1) '\x00') = some b := by
      simp only [Nat.mul_zero, Nat.zero_add, List.getD_cons_zero, List.getD_cons_succ]
      exact parse_pair_hexDigit b (hb b (by simp))
    rw [h0]
    have hshift : (List.range T.length).mapM
        (fun i => parse_pair ((hexDigit (b / 16) :: hexDigit (b % 16) :: format_hexhash T).getD (2 * (i + 1)) '\x00')
          ((hexDigit (b / 16) :: hexDigit (b % 16) :: format_hexhash T).getD (2 * (i + 1) + 1) '\x00')) =
        (List.range T.length).mapM
        (fun i => parse_pair ((format_hexhash T).getD (2 * i) '\x00')
          ((format_hexhash T).getD (2 * i + 1) '\x00')) := by
      refine mapM_congr _ (fun i _ => ?_)
      have e1 : 2 * (i + 1) = 2 * i + 1 + 1 := by omega
      have e2 : 2 * (i + 1) + 1 = 2 * i + 1 + 1 + 1 := by omega
      rw [e2, e1]
      simp only [List.getD_cons_succ]
    rw [hshift, ih (fun x hx => hb x (by simp [hx]))]
    rfl

/-- Claim C9: `parse_hexhash` inverts `format_hexhash` on every byte
string. -/
theorem parse_format_roundtrip (H : Bytes) (hb : ∀ b ∈ H, b < 256) :
    parse_hexhash (format_hexhash H) = H := by
  unfold parse_hexhash
  have hl : (format_hexhash H).length / 2 = H.length := by
    rw [format_hexhash_length]; omega
  rw [hl, parse_format_aux H hb]

/-- A concrete round trip through the hex codec. -/
theorem parse_format_roundtrip_witness :
    parse_hexhash (format_hexhash [165, 0, 255]) = [165, 0, 255] :=
  parse_format_roundtrip [165, 0, 255] (by decide)

/-- Claim C10, counterexample: the odd-length input "a5f" parses to the
one-byte hash 0xA5, not to the empty hash the claim requires. -/
theorem parse_hexhash_odd_not_empty :
    parse_hexhash ['a', '5', 'f'] = [165] ∧ (['a', '5', 'f'] : List Char).length % 2 = 1 := by
  decide

/-- Claim C10 as amended: `parse_hexhash` inspects only the first
`2·⌊n/2⌋` characters, and returns the empty hash iff the input has fewer
than two characters or some aligned two-character pair is rejected by the
`strtoul`-based pair parse. -/
theorem parse_hexhash_empty_iff (s : List Char) :
    parse_hexhash s = [] ↔
      (s.length < 2 ∨ ∃ i, i < s.length / 2 ∧
        parse_pair (s.getD (2 * i) '\x00') (s.getD (2 * i + 1) '\x00') = none) := by
  unfold parse_hexhash
  cases hm : (List.range (s.length / 2)).mapM
      (fun i => parse_pair (s.getD (2 * i) '\x00') (s.getD (2 * i + 1) '\x00')) with
  | none =>
    simp only []
    constructor
    · intro _
      exact Or.inr ((mapM_range_eq_none _ _).mp hm)
    · intro _; trivial
  | some l =>
    simp only []
    constructor
    · intro h
      left
      have hlen := mapM_range_length _ _ _ hm
      rw [h] at hlen
      simp at hlen
      omega
    · rintro (h | ⟨i, hi, hfi⟩)
      · have h0 : s.length / 2 = 0 := by omega
        rw [h0] at hm
        injection (show some ([] : Bytes) =
            some l from hm) with h2
        exact h2.symm
      · exfalso
        have hnone : (List.range (s.length / 2)).mapM
            (fun i => parse_pair (s.getD (2 * i) '\x00') (s.getD (2 * i + 1) '\x00')) = none :=
          (mapM_range_eq_none _ _).mpr ⟨i, hi, hfi⟩
        rw [hnone] at hm
        cases hm

/-! ### Insert writes and the slot invariant (claims C6, C2 and C1) -/

/-- Reading after a `Put`: the written key sees the new value, every other
key is untouched. -/
theorem store_get_put (s : Store) (key val k : Bytes) :
    store_get (store_put s key val) k = if k = key then some val else store_get s k := by
  induction s with
  | nil =>
    by_cases h : k = key
    · subst h; simp [store_put, store_get]
    · have h' : ¬ key = k := fun hh => h hh.symm
      simp [store_put, store_get, h, h']
  | cons e rest ih =>
    obtain ⟨k0, v0⟩ := e
    simp only [store_put]
    by_cases h0 : k0 = key
    · subst h0
      simp only [if_pos rfl]
      by_cases h : k = k0
      · subst h; simp [store_get]
      · have h' : ¬ k0 = k := fun hh => h hh.symm
        simp [store_get, h, h']
    · rw [if_neg h0]
      by_cases h : k0 = k
      · subst h
        simp [store_get, h0]
      · simp [store_get, h, ih]

/-- The effect on one key of the per-partition `Put` loop of `insert`:
after the fold, a key written for some partition of `hash` holds `hash`,
any other key is untouched. -/
theorem foldPut_get (p : HmParams) (hash : Bytes) :
    ∀ (l : List Nat) (s s' : Store),
      l.foldlM (fun st i => (get_partition_key p hash i).map
        (fun kp => store_put st kp.1 hash)) s = some s' →
      ∀ key, store_get s' key =
        if (l.any (fun i => match get_partition_key p hash i with
                            | some kp => kp.1 = key
                            | none => false)) = true then some hash
        else store_get s key := by
  intro l
  induction l with
  | nil =>
    intro s s' h key
    injection h with h
    subst h
    rfl
  | cons i rest ih =>
    intro s s' h key
    rw [List.foldlM_cons] at h
    cases hk : get_partition_key p hash i with
    | none => rw [hk] at h; simp at h
    | some kp =>
      rw [hk] at h
      simp only [Option.map_some', Option.bind_eq_bind, Option.some_bind] at h
      rw [ih _ _ h key, store_get_put]
      simp only [List.any_cons, hk, Bool.or_eq_true, decide_eq_true_eq]
      by_cases h1 : (rest.any (fun i => match get_partition_key p hash i with
                            | some kp => decide (kp.1 = key)
                            | none => false)) = true
      · simp [h1]
      · by_cases h2 : kp.1 = key
        · subst h2
          simp [h1]
        · have h2' : ¬ key = kp.1 := fun hh => h2 hh.symm
          simp [h1, h2, h2']

/-- `insertStore` written through `foldPut_get`: the keys of `hash` now
hold `hash`, all other keys are untouched. -/
theorem insertStore_get (p : HmParams) (s s' : Store) (hash : Bytes)
    (h : insertStore p s hash = some s') (key : Bytes) :
    store_get s' key = if hashHasKey p hash key = true then some hash else store_get s key :=
  foldPut_get p hash (List.range p.partitions) s s' h key

/-- Unfolding one step of `insertList`. -/
theorem insertList_cons (p : HmParams) (db : DB) (x : Bytes) (rest : List Bytes) :
    insertList p db (x :: rest) =
      if (HmSearch.insert p db x).1 = true then
        insertList p (HmSearch.insert p db x).2.2 rest
      else none := by
  cases hr : (HmSearch.insert p db x).1 <;>
    simp [insertList, List.foldlM_cons, hr]

/-- On an open handle and a hash of the right length, `insert` is the
partition-write fold. -/
theorem insert_succeeds (p : HmParams) (s : Store) (x : Bytes)
    (hlen : x.length = p.hash_bytes) :
    HmSearch.insert p ⟨true, s⟩ x =
      match insertStore p s x with
      | some s2 => (true, "", ⟨true, s2⟩)
      | none => (false, "undefined partition key", ⟨true, s⟩) := by
  unfold HmSearch.insert
  rw [if_neg (by simp [hlen]), if_neg (by simp)]

/-- A failed length guard fails `insert`. -/
theorem insert_bad_length (p : HmParams) (db : DB) (x : Bytes)
    (hlen : ¬ x.length = p.hash_bytes) :
    HmSearch.insert p db x = (false, "incorrect hash length", db) := by
  unfold HmSearch.insert
  rw [if_pos hlen]

/-- A successful `insertList` run starting from an open handle: the handle
stays open, every inserted hash passed the length guard, and each key
holds the value of the last insert that wrote it. -/
theorem insertList_get (p : HmParams) :
    ∀ (hs : List Bytes) (s : Store) (db : DB),
      insertList p ⟨true, s⟩ hs = some db →
      db.isOpen = true ∧
      (∀ h ∈ hs, h.length = p.hash_bytes) ∧
      ∀ key, store_get db.store key =
        hs.foldl (fun acc h => if hashHasKey p h key then some h else acc)
          (store_get s key) := by
  intro hs
  induction hs with
  | nil =>
    intro s db h
    injection h with h
    subst h
    exact ⟨rfl, by simp, fun key => rfl⟩
  | cons x rest ih =>
    intro s db h
    rw [insertList_cons] at h
    by_cases hlen : x.length = p.hash_bytes
    · rw [insert_succeeds p s x hlen] at h
      cases hins : insertStore p s x with
      | none => rw [hins] at h; simp at h
      | some s2 =>
        rw [hins] at h
        simp only [if_pos rfl] at h
        obtain ⟨hopen, hlens, hget⟩ := ih s2 db h
        refine ⟨hopen, ?_, fun key => ?_⟩
        · intro y hy
          rcases List.mem_cons.mp hy with rfl | hy'
          · exact hlen
          · exact hlens y hy'
        · rw [hget key]
          simp only [List.foldl_cons]
          rw [insertStore_get p s s2 x hins key]
    · rw [insert_bad_length p _ x hlen] at h
      simp at h

/-- The last-writer fold only ever produces a member of the list (or the
initial accumulator). -/
theorem lastWriter_fold_mem (p : HmParams) :
    ∀ (hs : List Bytes) (key v : Bytes) (acc : Option Bytes),
      hs.foldl (fun acc h => if hashHasKey p h key then some h else acc) acc = some v →
      v ∈ hs ∨ acc = some v := by
  intro hs
  induction hs with
  | nil => intro key v acc h; exact Or.inr h
  | cons x rest ih =>
    intro key v acc h
    simp only [List.foldl_cons] at h
    rcases ih key v _ h with h' | h'
    · exact Or.inl (by simp [h'])
    · by_cases hx : hashHasKey p x key = true
      · rw [if_pos hx] at h'
        injection h' with h'
        exact Or.inl (by simp [h'])
      · rw [if_neg hx] at h'
        exact Or.inr h'

/-- Claim C6: after any sequence of successful inserts into a fresh store,
each key holds exactly the most recently inserted hash among those whose
partition bits select that key — a single hash of `⌈B/8⌉` bytes, never a
concatenation. -/
theorem insert_last_writer_wins (p : HmParams) (hs : List Bytes) (db : DB)
    (hrun : insertList p ⟨true, store_empty⟩ hs = some db) :
    (∀ key, store_get db.store key = lastWriter p hs key) ∧
    (∀ key v, store_get db.store key = some v → v.length = p.hash_bytes) := by
  obtain ⟨-, hlens, hget⟩ := insertList_get p hs store_empty db hrun
  have hlast : ∀ key, store_get db.store key = lastWriter p hs key := fun key => hget key
  refine ⟨hlast, fun key v hv => ?_⟩
  rw [hlast key] at hv
  rcases lastWriter_fold_mem p hs key v none hv with hmem | hacc
  · exact hlens v hmem
  · cases hacc

/-- A concrete instance of last-writer-wins: after inserting 0xA5 then
0xA4 (which share their first partition), the shared slot holds 0xA4. -/
theorem insert_last_writer_wins_witness :
    store_get (DB.mk true
      [([80, 0, 160, 0], [164]), ([80, 1, 5, 0], [165]), ([80, 1, 4, 0], [164])]).store
      [80, 0, 160, 0] = lastWriter p8 [[165], [164]] [80, 0, 160, 0] :=
  (insert_last_writer_wins p8 [[165], [164]]
    ⟨true, [([80, 0, 160, 0], [164]), ([80, 1, 5, 0], [165]), ([80, 1, 4, 0], [164])]⟩
    (by decide)).1 [80, 0, 160, 0]

/-- Claim C2, failing run: `[80, 0, 160, 0]` is the partition-0 key of
0xA5, yet after inserting 0xA5 and then 0xA4 (whose partition 0 has the
same bits `1010`) that slot holds only `[0xA4]` — the `Put` in
`HmSearchImpl::insert` overwrote the slot instead of appending, so no copy
of 0xA5 remains in it. -/
theorem insert_overwrites_slot :
    (get_partition_key p8 [165] 0).map Prod.fst = some [80, 0, 160, 0] ∧
    (insertList p8 ⟨true, store_empty⟩ [[165], [164]]).map
      (fun db => store_get db.store [80, 0, 160, 0]) = some (some [164]) := by
  decide

/-- Claim C1, failing run (the spec's scenario S5): with `B = 8`, `k = 2`,
after inserting 0xA5, 0xA4 and 0xE5, `lookup(0xA5)` succeeds but returns
only `(0xA4, 1)` and `(0xE5, 1)` — the stored hash 0xA5, at distance 0,
is missing because both of its slots were overwritten by later inserts. -/
theorem lookup_misses_overlapping_insert :
    (insertList p8 ⟨true, store_empty⟩ [[165], [164], [229]]).map
      (fun db => lookup p8 db [165] (-1) []) =
      some (true, "", [([164], 1), ([229], 1)]) ∧
    hamming_distance [165] [165] = 0 := by
  decide

/-! ### The partition key codec (claim C5) -/

/-- Claim C5, failing case: `B = 40`, `k = 35` passes init validation, yet
partition 14 of the 19 partitions has `i·b = 42 > 40 = B`, so the C code's
`int psize` is negative and the copy loop shifts by a negative amount —
undefined behaviour, modelled as `none`: no key with the claimed layout is
produced. -/
theorem partition_key_undefined_case :
    init_validate 40 35 = none ∧
    14 < (mkParams 40 35).partitions ∧
    [255, 255, 255, 255, 255].length = (mkParams 40 35).hash_bytes ∧
    get_partition_key (mkParams 40 35) [255, 255, 255, 255, 255] 14 = none := by
  decide

/-- Unfolding one iteration of the key-copy loop. -/
theorem gpk_bytes_succ (hash : Bytes) (n bl hb : Nat) :
    gpk_bytes hash (n + 1) bl hb =
      (hash.getD (hb / 8) 0 &&&
        (((1 <<< min (8 - hb % 8) bl) - 1) <<< (8 - hb % 8 - min (8 - hb % 8) bl))) ::
      gpk_bytes hash n (bl - min (8 - hb % 8) bl) (hb + min (8 - hb % 8) bl) := rfl

/-- The key-copy loop emits exactly one byte per iteration. -/
theorem gpk_bytes_length (hash : Bytes) :
    ∀ (n bl hb : Nat), (gpk_bytes hash n bl hb).length = n := by
  intro n
  induction n with
  | zero => intro bl hb; rfl
  | succ n ih => intro bl hb; rw [gpk_bytes_succ]; simp [ih]

/-- The masks of the key-copy loop fit in a byte. -/
theorem gpk_mask_lt (b s : Nat) (hbs : b + s ≤ 8) : ((1 <<< b) - 1) <<< s < 256 := by
  rw [Nat.one_shiftLeft, Nat.shiftLeft_eq]
  have h2 : 0 < 2 ^ s := Nat.pow_pos (by norm_num)
  have h1 : 2 ^ b - 1 < 2 ^ b := by
    have h0 : 0 < 2 ^ b := Nat.pow_pos (by norm_num)
    omega
  calc (2 ^ b - 1) * 2 ^ s < 2 ^ b * 2 ^ s := (mul_lt_mul_right h2).mpr h1
    _ = 2 ^ (b + s) := (pow_add 2 b s).symm
    _ ≤ 2 ^ 8 := Nat.pow_le_pow_right (by norm_num) hbs
    _ = 256 := by norm_num

/-- Every byte the key-copy loop emits is a byte value. -/
theorem gpk_bytes_byte_lt (hash : Bytes) :
    ∀ (n bl hb m : Nat), m < n → (gpk_bytes hash n bl hb).getD m 0 < 256 := by
  intro n
  induction n with
  | zero => intro bl hb m hm; omega
  | succ n ih =>
    intro bl hb m hm
    rw [gpk_bytes_succ]
    cases m with
    | zero =>
      rw [List.getD_cons_zero]
      refine Nat.lt_of_le_of_lt Nat.and_le_right (gpk_mask_lt _ _ ?_)
      omega
    | succ m =>
      rw [List.getD_cons_succ]
      exact ih _ _ m (by omega)

/-- The bit pattern of a shifted all-ones mask. -/
theorem mask_testBit (b s j : Nat) :
    (((1 <<< b) - 1) <<< s).testBit j = (decide (s ≤ j) && decide (j < s + b)) := by
  rw [Nat.one_shiftLeft, Nat.testBit_shiftLeft, Nat.testBit_two_pow_sub_one]
  by_cases h1 : s ≤ j
  · have h3 : (j - s < b) ↔ (j < s + b) := by omega
    simp [h1, h3]
  · simp [h1]

/-- The heart of the key codec: bit `t` of output byte `m` of the copy loop
started at hash bit `hb` with `bl` bits to copy is hash bit
`(hb/8 + m)·8 + t` when that position lies in `[hb, hb + bl)`, and zero
otherwise — each copied bit keeps its position modulo 8. -/
theorem gpk_bytes_testBit (hash : Bytes) :
    ∀ (n bl hb m t : Nat), m < n → t < 8 →
      msbBit ((gpk_bytes hash n bl hb).getD m 0) t =
        (if hb ≤ (hb / 8 + m) * 8 + t ∧ (hb / 8 + m) * 8 + t < hb + bl
         then hashBit hash ((hb / 8 + m) * 8 + t) else false) := by
  intro n
  induction n with
  | zero => intro bl hb m t hm ht; omega
  | succ n ih =>
    intro bl hb m t hm ht
    rw [gpk_bytes_succ]
    cases m with
    | zero =>
      rw [List.getD_cons_zero]
      unfold msbBit hashBit
      rw [Nat.testBit_and, mask_testBit]
      set q := hb / 8 with hq
      set r := hb % 8 with hr
      have hqr : 8 * q + r = hb := Nat.div_add_mod hb 8
      have hr8 : r < 8 := Nat.mod_lt _ (by norm_num)
      have hj : ((q + 0) * 8 + t) / 8 = q := by omega
      have hj2 : ((q + 0) * 8 + t) % 8 = t := by omega
      rw [hj, hj2]
      unfold msbBit
      by_cases hcond : hb ≤ (q + 0) * 8 + t ∧ (q + 0) * 8 + t < hb + bl
      · rw [if_pos hcond]
        have e1 : decide ((8 - r - min (8 - r) bl) ≤ 7 - t) = true :=
          decide_eq_true (by omega)
        have e2 : decide (7 - t < (8 - r - min (8 - r) bl) + min (8 - r) bl) = true :=
          decide_eq_true (by omega)
        rw [e1, e2]
        simp
      · rw [if_neg hcond]
        by_cases hA : (8 - r - min (8 - r) bl) ≤ 7 - t
        · have e2 : decide (7 - t < (8 - r - min (8 - r) bl) + min (8 - r) bl) = false :=
          decide_eq_false (by omega)
          rw [e2]
          simp
        · have e1 : decide ((8 - r - min (8 - r) bl) ≤ 7 - t) = false :=
            decide_eq_false hA
          rw [e1]
          simp
    | succ m =>
      rw [List.getD_cons_succ]
      rw [ih (bl - min (8 - hb % 8) bl) (hb + min (8 - hb % 8) bl) m t (by omega) ht]
      set q := hb / 8 with hq
      set r := hb % 8 with hr
      have hqr : 8 * q + r = hb := Nat.div_add_mod hb 8
      have hr8 : r < 8 := Nat.mod_lt _ (by norm_num)
      by_cases hcase : 8 - r ≤ bl
      · have hmin : min (8 - r) bl = 8 - r := by omega
        rw [hmin]
        have hdiv : (hb + (8 - r)) / 8 = q + 1 := by omega
        rw [hdiv]
        have hidx : (q + 1 + m) * 8 + t = (q + (m + 1)) * 8 + t := by ring
        rw [hidx]
        have hcond : ((hb + (8 - r)) ≤ (q + (m + 1)) * 8 + t ∧
            (q + (m + 1)) * 8 + t < (hb + (8 - r)) + (bl - (8 - r))) ↔
            (hb ≤ (q + (m + 1)) * 8 + t ∧ (q + (m + 1)) * 8 + t < hb + bl) := by
          omega
        rw [if_congr hcond rfl rfl]
      · have hmin : min (8 - r) bl = bl := by omega
        rw [hmin]
        rw [if_neg (by omega), if_neg (by omega)]

/-- Claim C5 as amended: with `P = ⌊(k+3)/2⌋` and `b = ⌈B/P⌉`, for every
hash and every partition `i < P` with `i·b ≤ B` (for `i·b > B` the C code
is undefined, see the failing case), `get_partition_key` returns
`psize = min(b, B − i·b)` and a key whose byte 0 is `'P'`, whose byte 1 is
`i mod 256` (the partition byte truncates), and whose payload carries
exactly the `psize` hash bits starting at bit `i·b`, each kept at its
source position modulo 8 inside its destination byte, with every other bit
position — including the whole trailing legacy byte — zero. -/
theorem partition_key_layout (B k : Nat) (p : HmParams) (hp : p = mkParams B k)
    (hash : Bytes) (i : Nat)
    (hlen : hash.length = p.hash_bytes)
    (hi : i < p.partitions)
    (hbound : i * p.partition_bits ≤ p.hash_bits) :
    ∃ payload psize,
      get_partition_key p hash i = some (80 :: i % 256 :: payload, psize) ∧
      psize = min p.partition_bits (p.hash_bits - i * p.partition_bits) ∧
      payload.length = p.partition_bytes ∧
      (∀ m, m < p.partition_bytes → ∀ t, t < 8 →
        msbBit (payload.getD m 0) t =
          (if i * p.partition_bits ≤ (i * p.partition_bits / 8 + m) * 8 + t ∧
              (i * p.partition_bits / 8 + m) * 8 + t < i * p.partition_bits + psize
           then hashBit hash ((i * p.partition_bits / 8 + m) * 8 + t)
           else false)) ∧
      (∀ j, i * p.partition_bits ≤ j → j < i * p.partition_bits + psize →
        j / 8 - i * p.partition_bits / 8 < p.partition_bytes ∧
        msbBit (payload.getD (j / 8 - i * p.partition_bits / 8) 0) (j % 8) =
          hashBit hash j) ∧
      (∀ m, m < p.partition_bytes → payload.getD m 0 < 256) := by
  subst hp
  unfold get_partition_key
  rw [if_neg (Nat.not_lt.mpr hbound)]
  refine ⟨_, _, rfl, rfl, gpk_bytes_length _ _ _ _,
    fun m hm t ht => gpk_bytes_testBit hash _ _ _ m t hm ht, fun j hj1 hj2 => ?_, ?_⟩
  · have hpb : (mkParams B k).partition_bytes = ((mkParams B k).partition_bits + 7) / 8 + 1 :=
      rfl
    have hpsize : min (mkParams B k).partition_bits
        ((mkParams B k).hash_bits - i * (mkParams B k).partition_bits) ≤
        (mkParams B k).partition_bits := Nat.min_le_left _ _
    have hm : j / 8 - i * (mkParams B k).partition_bits / 8 < (mkParams B k).partition_bytes := by
      omega
    refine ⟨hm, ?_⟩
    have h := gpk_bytes_testBit hash (mkParams B k).partition_bytes
      (min (mkParams B k).partition_bits
        ((mkParams B k).hash_bits - i * (mkParams B k).partition_bits))
      (i * (mkParams B k).partition_bits)
      (j / 8 - i * (mkParams B k).partition_bits / 8) (j % 8) hm
      (Nat.mod_lt _ (by norm_num))
    have hje : (i * (mkParams B k).partition_bits / 8 +
        (j / 8 - i * (mkParams B k).partition_bits / 8)) * 8 + j % 8 = j := by
      omega
    rw [hje] at h
    rw [h, if_pos ⟨hj1, hj2⟩]
  · exact fun m hm => gpk_bytes_byte_lt hash _ _ _ m hm

/-- A concrete instance of the key layout: partition 0 of hash 0xA5 under
`B = 8`, `k = 2`. -/
theorem partition_key_layout_witness :
    ∃ payload psize,
      get_partition_key p8 [165] 0 = some (80 :: 0 % 256 :: payload, psize) ∧
      psize = min p8.partition_bits (p8.hash_bits - 0 * p8.partition_bits) ∧
      payload.length = p8.partition_bytes ∧
      (∀ m, m < p8.partition_bytes → ∀ t, t < 8 →
        msbBit (payload.getD m 0) t =
          (if 0 * p8.partition_bits ≤ (0 * p8.partition_bits / 8 + m) * 8 + t ∧
              (0 * p8.partition_bits / 8 + m) * 8 + t < 0 * p8.partition_bits + psize
           then hashBit [165] ((0 * p8.partition_bits / 8 + m) * 8 + t)
           else false)) ∧
      (∀ j, 0 * p8.partition_bits ≤ j → j < 0 * p8.partition_bits + psize →
        j / 8 - 0 * p8.partition_bits / 8 < p8.partition_bytes ∧
        msbBit (payload.getD (j / 8 - 0 * p8.partition_bits / 8) 0) (j % 8) =
          hashBit [165] j) ∧
      (∀ m, m < p8.partition_bytes → payload.getD m 0 < 256) :=
  partition_key_layout 8 2 p8 rfl [165] 0 (by decide) (by decide) (by decide)
